import Mathlib

/-!
Verification development for the texide prose-linter core.

We shallowly embed the Rust sources of `texide_core` (config.rs, linter.rs,
result.rs) and `texide_parser` (text.rs, markdown.rs).  Sources are modelled
at the level the Rust code works at: strings are lists of characters, byte
offsets are computed from the UTF-8 width of each character, and every Rust
string-slicing operation is modelled partially (an `Option`), returning
`none` exactly when the Rust slice would panic (out-of-range index or an
index that is not a character boundary).

Components of the repository that are only declared elsewhere (the
`texide_ast` node model, the `texide_cache` manager, the `texide_plugin`
diagnostics, the `Parser` trait's `can_parse` default) are modelled from
the specification, and are marked as such in their doc comments.
-/

namespace Texide

/-! ## AST node model

Modelled from the spec: the `texide_ast` crate is not part of the sources
under verification; the spec describes `Span` as a half-open byte range,
`NodeType` as a closed enumeration, `NodeData` as a bag of optional
attributes, and `TxtNode` as `(node_type, span, data, children)` where leaf
nodes may carry a verbatim `value` string. -/

structure Span where
  start : Nat
  stop : Nat
deriving DecidableEq, Repr

inductive NodeType where
  | Document | Paragraph | Header | Str | Emphasis | Strong | Code
  | CodeBlock | Link | Image | List | ListItem | BlockQuote
  | HorizontalRule | Break | Html | Delete | Table | TableRow | TableCell
  | FootnoteDefinition | FootnoteReference | LinkReference
  | ImageReference | Definition
deriving DecidableEq, Repr

structure NodeData where
  depth : Option Nat := none
  ordered : Option Bool := none
  url : Option String := none
  title : Option String := none
  lang : Option String := none
  identifier : Option String := none
  label : Option String := none
deriving DecidableEq, Repr

instance : Inhabited NodeData := ⟨{}⟩

inductive TxtNode where
  | mk (ty : NodeType) (span : Span) (value : Option String)
      (data : NodeData) (children : List TxtNode)
deriving Repr

def TxtNode.ty : TxtNode → NodeType
  | .mk t _ _ _ _ => t

def TxtNode.span : TxtNode → Span
  | .mk _ s _ _ _ => s

def TxtNode.value : TxtNode → Option String
  | .mk _ _ v _ _ => v

def TxtNode.data : TxtNode → NodeData
  | .mk _ _ _ d _ => d

def TxtNode.children : TxtNode → List TxtNode
  | .mk _ _ _ _ cs => cs

/-- `TxtNode::new_text(ty, span, value)` from `texide_ast` usage. -/
def TxtNode.newText (ty : NodeType) (sp : Span) (v : String) : TxtNode :=
  .mk ty sp (some v) {} []

/-- `TxtNode::new_parent(ty, span, children)` from `texide_ast` usage. -/
def TxtNode.newParent (ty : NodeType) (sp : Span) (cs : List TxtNode) : TxtNode :=
  .mk ty sp none {} cs

/-- `TxtNode::new_leaf(ty, span)` from `texide_ast` usage. -/
def TxtNode.newLeaf (ty : NodeType) (sp : Span) : TxtNode :=
  .mk ty sp none {} []

/-! ## UTF-8 byte arithmetic

Rust `str` values are UTF-8 byte strings; spans and all index arithmetic in
`text.rs` are in bytes.  We model a source string as a `List Char` and
compute byte positions through the UTF-8 encoding of each character. -/

/-- The UTF-8 encoding of one character (1 to 4 bytes). -/
def utf8Bytes (c : Char) : List Nat :=
  let n := c.toNat
  if n < 0x80 then [n]
  else if n < 0x800 then [0xC0 + n / 64, 0x80 + n % 64]
  else if n < 0x10000 then
    [0xE0 + n / 4096, 0x80 + (n / 64) % 64, 0x80 + n % 64]
  else
    [0xF0 + n / 0x40000, 0x80 + (n / 4096) % 64, 0x80 + (n / 64) % 64,
     0x80 + n % 64]

/-- Byte width of one character. -/
def csize (c : Char) : Nat := (utf8Bytes c).length

/-- The UTF-8 byte string of a source. -/
def encode : List Char → List Nat
  | [] => []
  | c :: s => utf8Bytes c ++ encode s

/-- Byte length of a source (`str::len`). -/
def byteLen (s : List Char) : Nat := (s.map csize).sum

theorem csize_pos (c : Char) : 1 ≤ csize c := by
  show 1 ≤ (utf8Bytes c).length
  unfold utf8Bytes
  simp only []
  split
  · simp
  · split
    · simp
    · split <;> simp

theorem byteLen_nil : byteLen [] = 0 := rfl

theorem byteLen_cons (c : Char) (s : List Char) :
    byteLen (c :: s) = csize c + byteLen s := by
  simp [byteLen]

theorem byteLen_append (a b : List Char) :
    byteLen (a ++ b) = byteLen a + byteLen b := by
  simp [byteLen]

theorem encode_length (s : List Char) : (encode s).length = byteLen s := by
  induction s with
  | nil => rfl
  | cons c s ih => simp [encode, byteLen_cons, ih, csize]

theorem encode_append (a b : List Char) :
    encode (a ++ b) = encode a ++ encode b := by
  induction a with
  | nil => rfl
  | cons c s ih => simp [encode, ih]

/-- Drop the first `n` bytes from a source; `none` when `n` overruns the
string or falls inside a character (where a Rust slice would panic). -/
def dropBytes : List Char → Nat → Option (List Char)
  | s, 0 => some s
  | [], _ + 1 => none
  | c :: s, n + 1 =>
    if csize c ≤ n + 1 then dropBytes s (n + 1 - csize c) else none

/-- Take the first `n` bytes from a source; `none` when `n` overruns the
string or falls inside a character. -/
def takeBytes : List Char → Nat → Option (List Char)
  | _, 0 => some []
  | [], _ + 1 => none
  | c :: s, n + 1 =>
    if csize c ≤ n + 1 then (takeBytes s (n + 1 - csize c)).map (c :: ·)
    else none

/-- Rust `&s[a..b]`: `none` exactly when the Rust slice panics. -/
def sliceBytes (s : List Char) (a b : Nat) : Option (List Char) :=
  if a ≤ b then (dropBytes s a).bind (fun t => takeBytes t (b - a)) else none

theorem takeBytes_all (a b : List Char) :
    takeBytes (a ++ b) (byteLen a) = some a := by
  induction a with
  | nil => simp [takeBytes, byteLen]
  | cons c s ih =>
    have h1 := csize_pos c
    rw [byteLen_cons]
    rcases Nat.exists_eq_add_of_le h1 with ⟨k, hk⟩
    have hsum : csize c + byteLen s = (k + byteLen s) + 1 := by omega
    rw [hsum]
    show takeBytes (c :: (s ++ b)) ((k + byteLen s) + 1) = some (c :: s)
    rw [takeBytes]
    have hle : csize c ≤ k + byteLen s + 1 := by omega
    rw [if_pos hle]
    have : k + byteLen s + 1 - csize c = byteLen s := by omega
    rw [this, ih]
    rfl

theorem dropBytes_all (a b : List Char) :
    dropBytes (a ++ b) (byteLen a) = some b := by
  induction a with
  | nil => simp [dropBytes, byteLen]
  | cons c s ih =>
    have h1 := csize_pos c
    rw [byteLen_cons]
    rcases Nat.exists_eq_add_of_le h1 with ⟨k, hk⟩
    have hsum : csize c + byteLen s = (k + byteLen s) + 1 := by omega
    rw [hsum]
    show dropBytes (c :: (s ++ b)) ((k + byteLen s) + 1) = some b
    rw [dropBytes]
    have hle : csize c ≤ k + byteLen s + 1 := by omega
    rw [if_pos hle]
    have : k + byteLen s + 1 - csize c = byteLen s := by omega
    rw [this, ih]

theorem sliceBytes_front (a b : List Char) :
    sliceBytes (a ++ b) 0 (byteLen a) = some a := by
  simp [sliceBytes, dropBytes, takeBytes_all]

theorem sliceBytes_mid (p m r : List Char) :
    sliceBytes (p ++ m ++ r) (byteLen p) (byteLen p + byteLen m) = some m := by
  have h : sliceBytes (p ++ m ++ r) (byteLen p) (byteLen p + byteLen m)
      = (dropBytes (p ++ (m ++ r)) (byteLen p)).bind
          (fun t => takeBytes t (byteLen p + byteLen m - byteLen p)) := by
    simp [sliceBytes, List.append_assoc]
  rw [h, dropBytes_all]
  simp [takeBytes_all]

theorem sliceBytes_tail (a b : List Char) :
    sliceBytes (a ++ b) (byteLen a) (byteLen (a ++ b)) = some b := by
  have := sliceBytes_mid a b []
  simpa [byteLen_append] using this

theorem dropBytes_some_bounds {s t : List Char} {a : Nat}
    (h : dropBytes s a = some t) : a ≤ byteLen s ∧ byteLen t = byteLen s - a := by
  induction s generalizing a t with
  | nil =>
    cases a with
    | zero => simp [dropBytes] at h; subst h; simp
    | succ n => simp [dropBytes] at h
  | cons c s ih =>
    cases a with
    | zero =>
      simp [dropBytes] at h; subst h; simp
    | succ n =>
      rw [dropBytes] at h
      by_cases hle : csize c ≤ n + 1
      · rw [if_pos hle] at h
        have := ih h
        rw [byteLen_cons]
        omega
      · rw [if_neg hle] at h; exact absurd h (by simp)

theorem takeBytes_some_bounds {s u : List Char} {n : Nat}
    (h : takeBytes s n = some u) : n ≤ byteLen s ∧ byteLen u = n := by
  induction s generalizing n u with
  | nil =>
    cases n with
    | zero => simp [takeBytes] at h; subst h; simp [byteLen]
    | succ m => simp [takeBytes] at h
  | cons c s ih =>
    cases n with
    | zero => simp [takeBytes] at h; subst h; simp [byteLen]
    | succ m =>
      rw [takeBytes] at h
      by_cases hle : csize c ≤ m + 1
      · rw [if_pos hle] at h
        rcases Option.map_eq_some'.mp h with ⟨u0, hu0, rfl⟩
        have := ih hu0
        rw [byteLen_cons]
        constructor
        · omega
        · rw [byteLen_cons]; omega
      · rw [if_neg hle] at h; exact absurd h (by simp)

theorem sliceBytes_some_bounds {s u : List Char} {a b : Nat}
    (h : sliceBytes s a b = some u) :
    a ≤ b ∧ b ≤ byteLen s ∧ byteLen u = b - a := by
  unfold sliceBytes at h
  by_cases hab : a ≤ b
  · rw [if_pos hab] at h
    rcases Option.bind_eq_some.mp h with ⟨t, hd, ht⟩
    have h1 := dropBytes_some_bounds hd
    have h2 := takeBytes_some_bounds ht
    refine ⟨hab, by omega, by omega⟩
  · rw [if_neg hab] at h; exact absurd h (by simp)

/-- Rust `str::rfind('\n')`: byte index of the last newline, if any. -/
def rfindNl : List Char → Option Nat
  | [] => none
  | c :: s =>
    match rfindNl s with
    | some i => some (csize c + i)
    | none => if c = '\n' then some 0 else none

theorem rfindNl_append_nl (a : List Char) :
    rfindNl (a ++ ['\n']) = some (byteLen a) := by
  induction a with
  | nil => rfl
  | cons c s ih =>
    show rfindNl (c :: (s ++ ['\n'])) = some (byteLen (c :: s))
    rw [rfindNl, ih, byteLen_cons]

/-! ## Whitespace, trimming and line splitting (Rust `char::is_whitespace`,
`str::trim`, `str::trim_end`, `str::lines`) -/

/-- Rust `char::is_whitespace`: the Unicode `White_Space` property. -/
def rustIsWs (c : Char) : Bool :=
  (0x09 ≤ c.toNat && c.toNat ≤ 0x0D) || c.toNat = 0x20 || c.toNat = 0x85 ||
  c.toNat = 0xA0 || c.toNat = 0x1680 ||
  (0x2000 ≤ c.toNat && c.toNat ≤ 0x200A) || c.toNat = 0x2028 ||
  c.toNat = 0x2029 || c.toNat = 0x202F || c.toNat = 0x205F ||
  c.toNat = 0x3000

/-- Rust `str::trim_start`. -/
def trimStart (l : List Char) : List Char := l.dropWhile rustIsWs

/-- Rust `str::trim_end`. -/
def trimEnd (l : List Char) : List Char :=
  (l.reverse.dropWhile rustIsWs).reverse

/-- Rust `str::trim`. -/
def rustTrim (l : List Char) : List Char := trimEnd (trimStart l)

theorem trimEnd_nil_iff (l : List Char) :
    trimEnd l = [] ↔ ∀ c ∈ l, rustIsWs c := by
  unfold trimEnd
  rw [List.reverse_eq_nil_iff, List.dropWhile_eq_nil_iff]
  constructor
  · intro h c hc; exact h c (List.mem_reverse.mpr hc)
  · intro h c hc; exact h c (List.mem_reverse.mp hc)

theorem trimStart_nil_iff (l : List Char) :
    trimStart l = [] ↔ ∀ c ∈ l, rustIsWs c := by
  unfold trimStart
  exact List.dropWhile_eq_nil_iff

theorem rustTrim_nil_iff (l : List Char) :
    rustTrim l = [] ↔ ∀ c ∈ l, rustIsWs c := by
  unfold rustTrim
  rw [trimEnd_nil_iff]
  constructor
  · intro h c hc
    have hsplit : c ∈ l.takeWhile rustIsWs ++ l.dropWhile rustIsWs := by
      rw [List.takeWhile_append_dropWhile]; exact hc
    rcases List.mem_append.mp hsplit with h1 | h2
    · exact List.mem_takeWhile_imp h1
    · exact h c h2
  · intro h c hc
    exact h c ((List.dropWhile_sublist rustIsWs).subset hc)

theorem trimEnd_append_nl (t : List Char) :
    trimEnd (t ++ ['\n']) = trimEnd t := by
  unfold trimEnd
  have : rustIsWs '\n' = true := by decide
  simp [List.dropWhile, this]

theorem trimEnd_ne_nil {t : List Char} (h : rustTrim t ≠ []) :
    trimEnd t ≠ [] := by
  intro hte
  exact h ((rustTrim_nil_iff t).mpr ((trimEnd_nil_iff t).mp hte))

theorem rustTrim_append_ne_nil {t : List Char} (u : List Char)
    (h : rustTrim t ≠ []) : rustTrim (t ++ u) ≠ [] := by
  intro hall
  apply h
  rw [rustTrim_nil_iff] at hall ⊢
  intro c hc
  exact hall c (List.mem_append_left u hc)

theorem byteLen_dropWhile_le (p : Char → Bool) (l : List Char) :
    byteLen (l.dropWhile p) ≤ byteLen l := by
  induction l with
  | nil => simp
  | cons c s ih =>
    by_cases h : p c
    · rw [List.dropWhile_cons_of_pos h, byteLen_cons]
      have := csize_pos c
      omega
    · rw [List.dropWhile_cons_of_neg h]

theorem byteLen_reverse (l : List Char) : byteLen l.reverse = byteLen l := by
  unfold byteLen
  simp [List.sum_reverse]

theorem byteLen_trimEnd_le (l : List Char) : byteLen (trimEnd l) ≤ byteLen l := by
  unfold trimEnd
  rw [byteLen_reverse]
  calc byteLen (l.reverse.dropWhile rustIsWs) ≤ byteLen l.reverse :=
        byteLen_dropWhile_le _ _
    _ = byteLen l := byteLen_reverse l

/-- Rust `str::split_inclusive('\n')`: chunks keep their trailing newline;
the empty string yields no chunks. -/
def splitInclNl : List Char → List (List Char)
  | [] => []
  | c :: r =>
    if c = '\n' then ['\n'] :: splitInclNl r
    else
      match splitInclNl r with
      | [] => [[c]]
      | chunk :: rest => (c :: chunk) :: rest

/-- One line of `str::lines`: the chunk with a trailing `"\n"` removed, and
then a trailing `'\r'` removed only when a newline was removed. -/
def lineContent (l : List Char) : List Char :=
  if l.getLast? = some '\n' then
    let l2 := l.dropLast
    if l2.getLast? = some '\r' then l2.dropLast else l2
  else l

/-- Rust `str::lines`. -/
def rustLines (s : List Char) : List (List Char) :=
  (splitInclNl s).map lineContent

/-! ## Plain text parser (`texide_parser/src/text.rs`, `PlainTextParser::parse`)

The Rust loop carries `current_start : Option<usize>` and
`current_end : usize` across the lines of the source and accumulates
paragraph nodes.  Each paragraph `Paragraph[Str]` pair shares one span.
Every Rust string slice is modelled through `sliceBytes`, so the model
returns `none` exactly when the Rust code would panic on an invalid slice
index. -/

/-- One `Paragraph(children=[Str])` node pair as built by `text.rs`
(both nodes share `Span::new(start, start + para_text.len())`). -/
def mkParaNode (start : Nat) (para : List Char) : TxtNode :=
  TxtNode.newParent .Paragraph ⟨start, start + byteLen para⟩
    [TxtNode.newText .Str ⟨start, start + byteLen para⟩ (String.mk para)]

structure PtState where
  curStart : Option Nat
  curEnd : Nat
  paras : List TxtNode

/-- The `line_start` computation at the top of the loop body
(`if idx == 0 { 0 } else { source[..current_end].rfind('\n')… }`). -/
def lineStartOf (src : List Char) (curEnd : Nat) (idx : Nat) : Option Nat :=
  if idx = 0 then some 0
  else
    match sliceBytes src 0 curEnd with
    | none => none
    | some pre =>
      some (match rfindNl pre with
            | some p => p + 1
            | none => curEnd)

/-- The `current_end` update
(`current_end = line_start + line.len(); … += 1` on a following newline). -/
def curEndOf (src : List Char) (srcLen lineStart : Nat) (line : List Char) : Nat :=
  let ce0 := lineStart + byteLen line
  if ce0 < srcLen ∧ (encode src)[ce0]? = some 10 then ce0 + 1 else ce0

/-- The remainder of the loop body once `line_start` is computed. -/
def ptStepCore (src : List Char) (srcLen lineStart : Nat) (line : List Char)
    (st : PtState) : Option PtState :=
  let ce := curEndOf src srcLen lineStart line
  if rustTrim line = [] then
    match st.curStart with
    | some start =>
      match sliceBytes src start (max (lineStart - 1) start) with
      | none => none
      | some para =>
        let paras2 := if rustTrim para = [] then st.paras
                      else st.paras ++ [mkParaNode start para]
        some ⟨none, ce, paras2⟩
    | none => some ⟨st.curStart, ce, st.paras⟩
  else
    match st.curStart with
    | none => some ⟨some lineStart, ce, st.paras⟩
    | some s => some ⟨some s, ce, st.paras⟩

/-- The body of the `for (idx, line) in source.lines().enumerate()` loop. -/
def ptStep (src : List Char) (srcLen : Nat) (idx : Nat) (line : List Char)
    (st : PtState) : Option PtState :=
  match lineStartOf src st.curEnd idx with
  | none => none
  | some lineStart => ptStepCore src srcLen lineStart line st

/-- Iterating the loop body over all lines. -/
def ptRun (src : List Char) (srcLen : Nat) :
    Nat → List (List Char) → PtState → Option PtState
  | _, [], st => some st
  | idx, l :: ls, st =>
    (ptStep src srcLen idx l st).bind (ptRun src srcLen (idx + 1) ls)

/-- The `// Handle final paragraph` block after the loop. -/
def ptFinish (src : List Char) (srcLen : Nat) (st : PtState) :
    Option (List TxtNode) :=
  match st.curStart with
  | none => some st.paras
  | some start =>
    match sliceBytes src start srcLen with
    | none => none
    | some tail =>
      let para := trimEnd tail
      some (if para = [] then st.paras else st.paras ++ [mkParaNode start para])

/-- The paragraph list computed by `PlainTextParser::parse`. -/
def ptParas (src : List Char) : Option (List TxtNode) :=
  (ptRun src (byteLen src) 0 (rustLines src) ⟨none, 0, []⟩).bind
    (ptFinish src (byteLen src))

/-- `PlainTextParser::parse`: `none` models a Rust panic; a successful run
always returns `Ok(Document)` in the source, so no `ParseError` outcome
exists. -/
def parsePlainText (src : List Char) : Option TxtNode :=
  (ptParas src).map
    (fun ps => TxtNode.newParent .Document ⟨0, byteLen src⟩ ps)

/-! ## Reference paragraph decomposition

A clean description of what the loop in `text.rs` computes on sources free
of carriage returns: one entry per maximal run of lines with non-blank
trimmed content.  Each entry is the byte offset of the run's first line and
the run's raw text (the lines joined by newlines); the text of a run that
reaches the end of the source is trimmed of trailing whitespace. -/

def refAux (off : Nat) (acc : Option (Nat × List Char)) :
    List (List Char) → List (Nat × List Char)
  | [] =>
    match acc with
    | none => []
    | some (s, t) => [(s, trimEnd t)]
  | l :: ls =>
    if rustTrim l = [] then
      (match acc with | none => [] | some p => [p]) ++
        refAux (off + byteLen l + 1) none ls
    else
      match acc with
      | none => refAux (off + byteLen l + 1) (some (off, l)) ls
      | some (s, t) => refAux (off + byteLen l + 1) (some (s, t ++ '\n' :: l)) ls

/-- The reference result: the `Document` node over the runs. -/
def refParse (src : List Char) : TxtNode :=
  TxtNode.newParent .Document ⟨0, byteLen src⟩
    ((refAux 0 none (rustLines src)).map (fun p => mkParaNode p.1 p.2))

/-! ### Unfolding equations for `refAux` -/

theorem refAux_blank_none {l : List Char} (off : Nat) (ls : List (List Char))
    (h : rustTrim l = []) :
    refAux off none (l :: ls) = refAux (off + byteLen l + 1) none ls := by
  simp only [refAux]
  rw [if_pos h]
  simp

theorem refAux_blank_some {l : List Char} (off : Nat) (q : Nat × List Char)
    (ls : List (List Char)) (h : rustTrim l = []) :
    refAux off (some q) (l :: ls)
      = q :: refAux (off + byteLen l + 1) none ls := by
  obtain ⟨a, b⟩ := q
  simp only [refAux]
  rw [if_pos h]
  simp

theorem refAux_text_none {l : List Char} (off : Nat) (ls : List (List Char))
    (h : rustTrim l ≠ []) :
    refAux off none (l :: ls) = refAux (off + byteLen l + 1) (some (off, l)) ls := by
  simp only [refAux]
  rw [if_neg h]

theorem refAux_text_some {l : List Char} (off : Nat) (q : Nat × List Char)
    (ls : List (List Char)) (h : rustTrim l ≠ []) :
    refAux off (some q) (l :: ls)
      = refAux (off + byteLen l + 1) (some (q.1, q.2 ++ '\n' :: l)) ls := by
  obtain ⟨a, b⟩ := q
  simp only [refAux]
  rw [if_neg h]

/-! ### Structure of `rustLines` on carriage-return-free sources -/

theorem splitInclNl_cons_ne_nil (c : Char) (r : List Char) :
    splitInclNl (c :: r) ≠ [] := by
  unfold splitInclNl
  by_cases hc : c = '\n'
  · simp [hc]
  · rw [if_neg hc]
    cases splitInclNl r <;> simp

theorem nil_not_mem_splitInclNl (s : List Char) : [] ∉ splitInclNl s := by
  induction s with
  | nil => simp [splitInclNl]
  | cons c r ih =>
    unfold splitInclNl
    by_cases hc : c = '\n'
    · rw [if_pos hc]
      intro hmem
      rcases List.mem_cons.mp hmem with h | h
      · exact absurd h.symm (by simp)
      · exact ih h
    · rw [if_neg hc]
      cases hsp : splitInclNl r with
      | nil => simp
      | cons ch t =>
        intro hmem
        rcases List.mem_cons.mp hmem with h | h
        · exact absurd h.symm (by simp)
        · exact ih (hsp ▸ List.mem_cons_of_mem ch h)

theorem splitInclNl_flatten (s : List Char) :
    (splitInclNl s).flatten = s := by
  induction s with
  | nil => simp [splitInclNl]
  | cons c r ih =>
    unfold splitInclNl
    by_cases hc : c = '\n'
    · rw [if_pos hc]; simp [hc, ih]
    · rw [if_neg hc]
      cases hsp : splitInclNl r with
      | nil =>
        have : r = [] := by
          cases r with
          | nil => rfl
          | cons d u => exact absurd hsp (splitInclNl_cons_ne_nil d u)
        simp [this]
      | cons ch t =>
        rw [hsp] at ih
        simpa using congrArg (c :: ·) ih

theorem rustLines_nil_iff (s : List Char) : rustLines s = [] ↔ s = [] := by
  constructor
  · intro h
    cases s with
    | nil => rfl
    | cons c r =>
      unfold rustLines at h
      rw [List.map_eq_nil_iff] at h
      exact absurd h (splitInclNl_cons_ne_nil c r)
  · intro h; subst h; rfl

/-- Under no-carriage-return sources, a line is the chunk with just a
trailing newline removed. -/
theorem lineContent_noCR {l : List Char} (h : ∀ c ∈ l, c ≠ '\r') :
    lineContent l = if l.getLast? = some '\n' then l.dropLast else l := by
  unfold lineContent
  by_cases hl : l.getLast? = some '\n'
  · rw [if_pos hl, if_pos hl]
    by_cases hr : l.dropLast.getLast? = some '\r'
    · exfalso
      have hmem : '\r' ∈ l.dropLast := List.mem_of_mem_getLast? hr
      exact h '\r' (List.dropLast_subset l hmem) rfl
    · simp [hr]
  · rw [if_neg hl, if_neg hl]

theorem lineContent_cons {c : Char} {ch : List Char} (hne : ch ≠ [])
    (hcr : ∀ x ∈ c :: ch, x ≠ '\r') :
    lineContent (c :: ch) = c :: lineContent ch := by
  have h1 : ∀ x ∈ c :: ch, x ≠ '\r' := hcr
  have h2 : ∀ x ∈ ch, x ≠ '\r' := fun x hx => hcr x (List.mem_cons_of_mem c hx)
  rw [lineContent_noCR h1, lineContent_noCR h2]
  rcases List.exists_cons_of_ne_nil hne with ⟨d, ch2, rfl⟩
  rw [List.getLast?_cons_cons]
  by_cases hl : (d :: ch2).getLast? = some '\n'
  · rw [if_pos hl, if_pos hl]
    rfl
  · rw [if_neg hl, if_neg hl]

/-- Decomposition of a carriage-return-free source along its first line. -/
theorem rustLines_decomp {rest l : List Char} {ls2 : List (List Char)}
    (hcr : ∀ c ∈ rest, c ≠ '\r') (h : rustLines rest = l :: ls2) :
    (∃ rest2, rest = l ++ '\n' :: rest2 ∧ rustLines rest2 = ls2 ∧
        (∀ c ∈ rest2, c ≠ '\r')) ∨
    (rest = l ∧ ls2 = []) := by
  induction rest generalizing l ls2 with
  | nil => simp [rustLines, splitInclNl] at h
  | cons c r ih =>
    by_cases hc : c = '\n'
    · subst hc
      have hsp : rustLines ('\n' :: r) = lineContent ['\n'] :: rustLines r := by
        simp [rustLines, splitInclNl]
      rw [hsp] at h
      have hlc : lineContent ['\n'] = [] := by decide
      rw [hlc] at h
      injection h with h1 h2
      subst h1
      left
      refine ⟨r, by simp, h2, ?_⟩
      exact fun x hx => hcr x (List.mem_cons_of_mem _ hx)
    · have hcrr : ∀ x ∈ r, x ≠ '\r' :=
        fun x hx => hcr x (List.mem_cons_of_mem c hx)
      cases hsp : splitInclNl r with
      | nil =>
        have hr : r = [] := by
          cases r with
          | nil => rfl
          | cons d u => exact absurd hsp (splitInclNl_cons_ne_nil d u)
        subst hr
        have hone : rustLines [c] = [[c]] := by
          have : lineContent [c] = [c] := by
            rw [lineContent_noCR (by simpa using hcr c (by simp))]
            simp [hc]
          simp [rustLines, splitInclNl, hc, this]
        rw [hone] at h
        injection h with h1 h2
        subst h1
        right
        exact ⟨rfl, h2.symm⟩
      | cons ch t =>
        have hchne : ch ≠ [] := by
          intro he
          exact nil_not_mem_splitInclNl r (he ▸ (hsp ▸ List.mem_cons_self ch t))
        have hchr : ∀ x ∈ ch, x ≠ '\r' := by
          intro x hx
          apply hcrr
          have : x ∈ (splitInclNl r).flatten := by
            rw [hsp]
            exact List.mem_flatten.mpr ⟨ch, List.mem_cons_self ch t, hx⟩
          rwa [splitInclNl_flatten] at this
        have hcons : rustLines (c :: r)
            = lineContent (c :: ch) :: t.map lineContent := by
          unfold rustLines splitInclNl
          rw [if_neg hc, hsp]
          simp
        have hr : rustLines r = lineContent ch :: t.map lineContent := by
          unfold rustLines
          rw [hsp]
          simp
        have hlcc : lineContent (c :: ch) = c :: lineContent ch :=
          lineContent_cons hchne (by
            intro x hx
            rcases List.mem_cons.mp hx with rfl | hx2
            · exact hcr x (List.mem_cons_self _ _)
            · exact hchr x hx2)
        rw [hcons, hlcc] at h
        injection h with h1 h2
        rcases ih hcrr hr with ⟨r2, hre, hr2, hr2cr⟩ | ⟨hre, hte⟩
        · left
          refine ⟨r2, ?_, ?_, hr2cr⟩
          · rw [← h1, hre]
            simp
          · rw [← h2, hr2]
        · right
          constructor
          · rw [← h1, hre]
          · rw [← h2, hte]

/-! ### The loop state tracks byte offsets faithfully on CR-free sources -/

theorem byteLen_nl : byteLen ['\n'] = 1 := by decide

theorem lineStartOf_zero (src : List Char) (curEnd : Nat) :
    lineStartOf src curEnd 0 = some 0 := by
  simp [lineStartOf]

theorem lineStartOf_after_nl (src p0 rest : List Char) (idx : Nat)
    (hidx : idx ≠ 0) (hsrc : src = (p0 ++ ['\n']) ++ rest) :
    lineStartOf src (byteLen (p0 ++ ['\n'])) idx
      = some (byteLen (p0 ++ ['\n'])) := by
  unfold lineStartOf
  rw [if_neg hidx, hsrc, sliceBytes_front]
  simp [rfindNl_append_nl, byteLen_append, byteLen_nl]

theorem curEndOf_mid (src pre l rest2 : List Char)
    (hsrc : src = pre ++ l ++ '\n' :: rest2) :
    curEndOf src (byteLen src) (byteLen pre) l = byteLen (pre ++ l) + 1 := by
  unfold curEndOf
  have hassoc : src = (pre ++ l) ++ '\n' :: rest2 := by simp [hsrc]
  have hb : byteLen pre + byteLen l = byteLen (pre ++ l) := (byteLen_append _ _).symm
  have hget : (encode src)[byteLen (pre ++ l)]? = some 10 := by
    rw [hassoc, encode_append]
    have hnl : encode ('\n' :: rest2) = 10 :: encode rest2 := by
      show utf8Bytes '\n' ++ encode rest2 = 10 :: encode rest2
      have h10 : utf8Bytes '\n' = [10] := by decide
      rw [h10]
      rfl
    rw [hnl]
    rw [List.getElem?_append_right (by rw [encode_length])]
    rw [encode_length]
    simp
  have hlt : byteLen (pre ++ l) < byteLen src := by
    have h2 : byteLen src = byteLen (pre ++ l) + byteLen ('\n' :: rest2) := by
      rw [hassoc, byteLen_append]
    have h3 : 1 ≤ byteLen ('\n' :: rest2) := by
      rw [byteLen_cons]
      have := csize_pos '\n'
      omega
    omega
  rw [hb, if_pos ⟨hlt, hget⟩]

theorem curEndOf_last (src pre l : List Char) (hsrc : src = pre ++ l) :
    curEndOf src (byteLen src) (byteLen pre) l = byteLen src := by
  unfold curEndOf
  have hb : byteLen pre + byteLen l = byteLen src := by
    rw [hsrc, byteLen_append]
  rw [hb]
  have : ¬ (byteLen src < byteLen src ∧ (encode src)[byteLen src]? = some 10) := by
    intro ⟨h1, _⟩; omega
  rw [if_neg this]

theorem ptStepCore_blank_none {src line : List Char} {n L : Nat} {st : PtState}
    (h : rustTrim line = []) (hcs : st.curStart = none) :
    ptStepCore src n L line st = some ⟨none, curEndOf src n L line, st.paras⟩ := by
  unfold ptStepCore
  rw [if_pos h, hcs]

theorem ptStepCore_blank_some {src line para : List Char} {n L s : Nat}
    {st : PtState} (h : rustTrim line = []) (hcs : st.curStart = some s)
    (hslice : sliceBytes src s (max (L - 1) s) = some para)
    (hne : rustTrim para ≠ []) :
    ptStepCore src n L line st
      = some ⟨none, curEndOf src n L line, st.paras ++ [mkParaNode s para]⟩ := by
  unfold ptStepCore
  rw [if_pos h, hcs]
  simp [hslice, hne]

theorem ptStepCore_text_none {src line : List Char} {n L : Nat} {st : PtState}
    (h : rustTrim line ≠ []) (hcs : st.curStart = none) :
    ptStepCore src n L line st
      = some ⟨some L, curEndOf src n L line, st.paras⟩ := by
  unfold ptStepCore
  rw [if_neg h, hcs]

theorem ptStepCore_text_some {src line : List Char} {n L s : Nat} {st : PtState}
    (h : rustTrim line ≠ []) (hcs : st.curStart = some s) :
    ptStepCore src n L line st
      = some ⟨some s, curEndOf src n L line, st.paras⟩ := by
  unfold ptStepCore
  rw [if_neg h, hcs]

theorem ptFinish_some {src tail : List Char} {n s : Nat} {st : PtState}
    (hcs : st.curStart = some s) (hsl : sliceBytes src s n = some tail)
    (hne : trimEnd tail ≠ []) :
    ptFinish src n st = some (st.paras ++ [mkParaNode s (trimEnd tail)]) := by
  unfold ptFinish
  rw [hcs]
  simp [hsl, hne]

/-- Relation between the Rust loop's `current_start` and the reference
accumulator: an open run started at byte `s` has accumulated text `t`,
and the consumed prefix of the source is exactly the bytes before `s`,
then `t`, then (unless the source is exhausted) the newline that
terminated the last accumulated line. -/
def AccRel (pre : List Char) (ls : List (List Char)) :
    Option Nat → Option (Nat × List Char) → Prop
  | none, none => True
  | some s, some p =>
      p.1 = s ∧ rustTrim p.2 ≠ [] ∧
      ∃ p1, byteLen p1 = s ∧
        (pre = p1 ++ p.2 ++ ['\n'] ∨ (pre = p1 ++ p.2 ∧ ls = []))
  | _, _ => False

/-- Main loop/reference correspondence: on carriage-return-free sources the
loop of `PlainTextParser::parse`, followed by the final-paragraph block,
produces exactly the reference run decomposition. -/
theorem ptRun_ref (ls : List (List Char)) :
    ∀ (src pre rest : List Char) (idx : Nat) (st : PtState)
      (acc : Option (Nat × List Char)) (off : Nat),
    src = pre ++ rest →
    rustLines rest = ls →
    (∀ c ∈ rest, c ≠ '\r') →
    st.curEnd = byteLen pre →
    (ls ≠ [] → idx = 0 → pre = []) →
    (ls ≠ [] → idx ≠ 0 → ∃ p0, pre = p0 ++ ['\n']) →
    (ls ≠ [] → off = byteLen pre) →
    AccRel pre ls st.curStart acc →
    (ptRun src (byteLen src) idx ls st).bind (ptFinish src (byteLen src))
      = some (st.paras ++ (refAux off acc ls).map (fun p => mkParaNode p.1 p.2)) := by
  induction ls with
  | nil =>
    intro src pre rest idx st acc off hsrc hlines hcr hce h0 h1 hoff hacc
    have hrest : rest = [] := (rustLines_nil_iff rest).mp hlines
    subst hrest
    rw [List.append_nil] at hsrc
    subst hsrc
    show ptFinish src (byteLen src) st
      = some (st.paras ++ (refAux off acc []).map (fun p => mkParaNode p.1 p.2))
    cases hcs : st.curStart with
    | none =>
      cases acc with
      | none => simp [ptFinish, hcs, refAux]
      | some p => rw [hcs] at hacc; exact hacc.elim
    | some s =>
      cases acc with
      | none => rw [hcs] at hacc; exact hacc.elim
      | some p =>
        rw [hcs] at hacc
        obtain ⟨hp1, hpt, p1, hbl, hdisj⟩ := hacc
        have hrefv : refAux off (some p) [] = [(p.1, trimEnd p.2)] := rfl
        rcases hdisj with hpre | ⟨hpre, _⟩
        · have hsl : sliceBytes src s (byteLen src) = some (p.2 ++ ['\n']) := by
            rw [hpre, ← hbl]
            have := sliceBytes_tail p1 (p.2 ++ ['\n'])
            simpa using this
          rw [ptFinish_some hcs hsl
            (by rw [trimEnd_append_nl]; exact trimEnd_ne_nil hpt), hrefv]
          simp [hp1, trimEnd_append_nl]
        · have hsl : sliceBytes src s (byteLen src) = some p.2 := by
            rw [hpre, ← hbl]
            exact sliceBytes_tail p1 p.2
          rw [ptFinish_some hcs hsl (trimEnd_ne_nil hpt), hrefv]
          simp [hp1]
  | cons l ls2 ih =>
    intro src pre rest idx st acc off hsrc hlines hcr hce h0 h1 hoff hacc
    have hne : (l :: ls2 : List (List Char)) ≠ [] := by simp
    have hoffv : off = byteLen pre := hoff hne
    -- the line-start computation always yields the running byte offset
    have hlsv : lineStartOf src (byteLen pre) idx = some (byteLen pre) := by
      by_cases hidx : idx = 0
      · have hpre : pre = [] := h0 hne hidx
        subst hpre
        rw [hidx, lineStartOf_zero]
        rfl
      · obtain ⟨p0, hp0⟩ := h1 hne hidx
        rw [hp0]
        exact lineStartOf_after_nl src p0 rest idx hidx (by rw [← hp0, hsrc])
    have hstep : ∀ stx : PtState, stx.curEnd = byteLen pre →
        ptStep src (byteLen src) idx l stx
          = ptStepCore src (byteLen src) (byteLen pre) l stx := by
      intro stx hcex
      unfold ptStep
      rw [hcex, hlsv]
    have hrun : (ptRun src (byteLen src) idx (l :: ls2) st).bind
          (ptFinish src (byteLen src))
        = (ptStepCore src (byteLen src) (byteLen pre) l st).bind
            (fun st2 => (ptRun src (byteLen src) (idx + 1) ls2 st2).bind
              (ptFinish src (byteLen src))) := by
      show ((ptStep src (byteLen src) idx l st).bind
          (ptRun src (byteLen src) (idx + 1) ls2)).bind (ptFinish src (byteLen src)) = _
      rw [hstep st hce, Option.bind_assoc]
    rw [hrun]
    rcases rustLines_decomp hcr hlines with ⟨rest2, hre, hl2, hcr2⟩ | ⟨hre, hl2⟩
    · -- the line is terminated by a newline; rest = l ++ '\n' :: rest2
      have hsrc2 : src = (pre ++ l ++ ['\n']) ++ rest2 := by
        rw [hsrc, hre]; simp
      have hsrcm : src = pre ++ l ++ '\n' :: rest2 := by
        rw [hsrc, hre]
        simp
      have hcev : curEndOf src (byteLen src) (byteLen pre) l
          = byteLen (pre ++ l ++ ['\n']) := by
        rw [curEndOf_mid src pre l rest2 hsrcm,
          byteLen_append (pre ++ l) ['\n'], byteLen_nl]
      have hoff2 : off + byteLen l + 1 = byteLen (pre ++ l ++ ['\n']) := by
        rw [hoffv, byteLen_append (pre ++ l) ['\n'], byteLen_append pre l,
          byteLen_nl]
      by_cases hblank : rustTrim l = []
      · -- blank line
        cases hcs : st.curStart with
        | none =>
          cases acc with
          | some p => rw [hcs] at hacc; exact hacc.elim
          | none =>
            rw [ptStepCore_blank_none hblank hcs, Option.some_bind]
            have := ih src (pre ++ l ++ ['\n']) rest2 (idx + 1)
              ⟨none, curEndOf src (byteLen src) (byteLen pre) l, st.paras⟩
              none (off + byteLen l + 1) hsrc2 hl2 hcr2
              (by show curEndOf _ _ _ _ = _; rw [hcev])
              (by intro _ hi; exact absurd hi (by omega))
              (by intro _ _; exact ⟨pre ++ l, by simp⟩)
              (by intro _; exact hoff2)
              (by trivial)
            rw [this, refAux_blank_none off ls2 hblank]
        | some s =>
          cases acc with
          | none => rw [hcs] at hacc; exact hacc.elim
          | some p =>
            rw [hcs] at hacc
            obtain ⟨hp1, hpt, p1, hbl, hdisj⟩ := hacc
            rcases hdisj with hpre | ⟨_, habs⟩
            · have hmax : max (byteLen pre - 1) s = s + byteLen p.2 := by
                have : byteLen pre = byteLen p1 + byteLen p.2 + 1 := by
                  rw [hpre, byteLen_append (p1 ++ p.2) ['\n'],
                    byteLen_append p1 p.2, byteLen_nl]
                omega
              have hsl : sliceBytes src s (max (byteLen pre - 1) s)
                  = some p.2 := by
                rw [hmax, ← hbl]
                have hsplit : src = p1 ++ p.2 ++ (['\n'] ++ rest) := by
                  rw [hsrc, hpre]; simp
                rw [hsplit]
                exact sliceBytes_mid p1 p.2 (['\n'] ++ rest)
              rw [ptStepCore_blank_some hblank hcs hsl hpt, Option.some_bind]
              have := ih src (pre ++ l ++ ['\n']) rest2 (idx + 1)
                ⟨none, curEndOf src (byteLen src) (byteLen pre) l,
                  st.paras ++ [mkParaNode s p.2]⟩
                none (off + byteLen l + 1) hsrc2 hl2 hcr2
                (by show curEndOf _ _ _ _ = _; rw [hcev])
                (by intro _ hi; exact absurd hi (by omega))
                (by intro _ _; exact ⟨pre ++ l, by simp⟩)
                (by intro _; exact hoff2)
                (by trivial)
              rw [this, refAux_blank_some off p ls2 hblank]
              simp [hp1]
            · exact absurd habs (by simp)
      · -- line with content
        cases hcs : st.curStart with
        | none =>
          cases acc with
          | some p => rw [hcs] at hacc; exact hacc.elim
          | none =>
            rw [ptStepCore_text_none hblank hcs, Option.some_bind]
            have := ih src (pre ++ l ++ ['\n']) rest2 (idx + 1)
              ⟨some (byteLen pre), curEndOf src (byteLen src) (byteLen pre) l,
                st.paras⟩
              (some (off, l)) (off + byteLen l + 1) hsrc2 hl2 hcr2
              (by show curEndOf _ _ _ _ = _; rw [hcev])
              (by intro _ hi; exact absurd hi (by omega))
              (by intro _ _; exact ⟨pre ++ l, by simp⟩)
              (by intro _; exact hoff2)
              (by
                show AccRel _ _ (some (byteLen pre)) (some (off, l))
                refine ⟨hoffv, hblank, pre, rfl, Or.inl ?_⟩
                simp)
            rw [this, refAux_text_none off ls2 hblank]
        | some s =>
          cases acc with
          | none => rw [hcs] at hacc; exact hacc.elim
          | some p =>
            rw [hcs] at hacc
            obtain ⟨hp1, hpt, p1, hbl, hdisj⟩ := hacc
            rcases hdisj with hpre | ⟨_, habs⟩
            · rw [ptStepCore_text_some hblank hcs, Option.some_bind]
              have := ih src (pre ++ l ++ ['\n']) rest2 (idx + 1)
                ⟨some s, curEndOf src (byteLen src) (byteLen pre) l, st.paras⟩
                (some (p.1, p.2 ++ '\n' :: l)) (off + byteLen l + 1) hsrc2 hl2 hcr2
                (by show curEndOf _ _ _ _ = _; rw [hcev])
                (by intro _ hi; exact absurd hi (by omega))
                (by intro _ _; exact ⟨pre ++ l, by simp⟩)
                (by intro _; exact hoff2)
                (by
                  show AccRel _ _ (some s) (some (p.1, p.2 ++ '\n' :: l))
                  refine ⟨hp1, rustTrim_append_ne_nil _ hpt, p1, hbl, Or.inl ?_⟩
                  rw [hpre]
                  simp)
              rw [this, refAux_text_some off p ls2 hblank]
            · exact absurd habs (by simp)
    · -- the final unterminated line; rest = l and no further lines
      subst hl2
      have hsrc2 : src = (pre ++ l) ++ ([] : List Char) := by
        rw [hsrc, hre]; simp
      have hcev : curEndOf src (byteLen src) (byteLen pre) l = byteLen (pre ++ l) := by
        have := curEndOf_last src pre l (by rw [hsrc, hre])
        rw [this, hsrc, hre]
      by_cases hblank : rustTrim l = []
      · cases hcs : st.curStart with
        | none =>
          cases acc with
          | some p => rw [hcs] at hacc; exact hacc.elim
          | none =>
            rw [ptStepCore_blank_none hblank hcs, Option.some_bind]
            have := ih src (pre ++ l) [] (idx + 1)
              ⟨none, curEndOf src (byteLen src) (byteLen pre) l, st.paras⟩
              none (off + byteLen l + 1) hsrc2 rfl (by simp)
              (by show curEndOf _ _ _ _ = _; rw [hcev])
              (by intro hi; exact absurd rfl hi)
              (by intro hi; exact absurd rfl hi)
              (by intro hi; exact absurd rfl hi)
              (by trivial)
            rw [this, refAux_blank_none off [] hblank]
        | some s =>
          cases acc with
          | none => rw [hcs] at hacc; exact hacc.elim
          | some p =>
            rw [hcs] at hacc
            obtain ⟨hp1, hpt, p1, hbl, hdisj⟩ := hacc
            rcases hdisj with hpre | ⟨_, habs⟩
            · have hmax : max (byteLen pre - 1) s = s + byteLen p.2 := by
                have : byteLen pre = byteLen p1 + byteLen p.2 + 1 := by
                  rw [hpre, byteLen_append (p1 ++ p.2) ['\n'],
                    byteLen_append p1 p.2, byteLen_nl]
                omega
              have hsl : sliceBytes src s (max (byteLen pre - 1) s)
                  = some p.2 := by
                rw [hmax, ← hbl]
                have hsplit : src = p1 ++ p.2 ++ (['\n'] ++ rest) := by
                  rw [hsrc, hpre]; simp
                rw [hsplit]
                exact sliceBytes_mid p1 p.2 (['\n'] ++ rest)
              rw [ptStepCore_blank_some hblank hcs hsl hpt, Option.some_bind]
              have := ih src (pre ++ l) [] (idx + 1)
                ⟨none, curEndOf src (byteLen src) (byteLen pre) l,
                  st.paras ++ [mkParaNode s p.2]⟩
                none (off + byteLen l + 1) hsrc2 rfl (by simp)
                (by show curEndOf _ _ _ _ = _; rw [hcev])
                (by intro hi; exact absurd rfl hi)
                (by intro hi; exact absurd rfl hi)
                (by intro hi; exact absurd rfl hi)
                (by trivial)
              rw [this, refAux_blank_some off p [] hblank]
              simp [hp1]
            · exact absurd habs (by simp)
      · cases hcs : st.curStart with
        | none =>
          cases acc with
          | some p => rw [hcs] at hacc; exact hacc.elim
          | none =>
            rw [ptStepCore_text_none hblank hcs, Option.some_bind]
            have := ih src (pre ++ l) [] (idx + 1)
              ⟨some (byteLen pre), curEndOf src (byteLen src) (byteLen pre) l,
                st.paras⟩
              (some (off, l)) (off + byteLen l + 1) hsrc2 rfl (by simp)
              (by show curEndOf _ _ _ _ = _; rw [hcev])
              (by intro hi; exact absurd rfl hi)
              (by intro hi; exact absurd rfl hi)
              (by intro hi; exact absurd rfl hi)
              (by
                show AccRel _ _ (some (byteLen pre)) (some (off, l))
                exact ⟨hoffv, hblank, pre, rfl, Or.inr ⟨rfl, rfl⟩⟩)
            rw [this, refAux_text_none off [] hblank]
        | some s =>
          cases acc with
          | none => rw [hcs] at hacc; exact hacc.elim
          | some p =>
            rw [hcs] at hacc
            obtain ⟨hp1, hpt, p1, hbl, hdisj⟩ := hacc
            rcases hdisj with hpre | ⟨_, habs⟩
            · rw [ptStepCore_text_some hblank hcs, Option.some_bind]
              have := ih src (pre ++ l) [] (idx + 1)
                ⟨some s, curEndOf src (byteLen src) (byteLen pre) l, st.paras⟩
                (some (p.1, p.2 ++ '\n' :: l)) (off + byteLen l + 1) hsrc2 rfl
                (by simp)
                (by show curEndOf _ _ _ _ = _; rw [hcev])
                (by intro hi; exact absurd rfl hi)
                (by intro hi; exact absurd rfl hi)
                (by intro hi; exact absurd rfl hi)
                (by
                  show AccRel _ _ (some s) (some (p.1, p.2 ++ '\n' :: l))
                  refine ⟨hp1, rustTrim_append_ne_nil _ hpt, p1, hbl, Or.inr ⟨?_, rfl⟩⟩
                  rw [hpre]
                  simp)
              rw [this, refAux_text_some off p [] hblank]
            · exact absurd habs (by simp)

/-- On carriage-return-free sources, `PlainTextParser::parse` succeeds and
returns exactly the reference run decomposition. -/
theorem parsePlainText_eq_refParse (src : List Char)
    (hcr : ∀ c ∈ src, c ≠ '\r') :
    parsePlainText src = some (refParse src) := by
  unfold parsePlainText ptParas refParse
  cases hls : rustLines src with
  | nil =>
    have hsrc : src = [] := (rustLines_nil_iff src).mp hls
    subst hsrc
    rfl
  | cons l ls =>
    have hmain := ptRun_ref (l :: ls) src [] src 0 ⟨none, 0, []⟩ none 0
      (by simp) hls hcr rfl (fun _ _ => rfl) (fun _ hi => absurd rfl hi)
      (fun _ => rfl) trivial
    rw [hmain]
    simp

/-! ## Span well-formedness -/

mutual

def allSpansWF (len : Nat) : TxtNode → Bool
  | .mk _ sp _ _ cs =>
    decide (sp.start ≤ sp.stop) && decide (sp.stop ≤ len) && allSpansWFL len cs

def allSpansWFL (len : Nat) : List TxtNode → Bool
  | [] => true
  | n :: ns => allSpansWF len n && allSpansWFL len ns

end

theorem allSpansWFL_append (len : Nat) (a b : List TxtNode) :
    allSpansWFL len (a ++ b) = (allSpansWFL len a && allSpansWFL len b) := by
  induction a with
  | nil => simp [allSpansWFL]
  | cons n ns ih => simp [allSpansWFL, ih, Bool.and_assoc]

theorem mkParaNode_wf {len s : Nat} {para : List Char}
    (h : s + byteLen para ≤ len) :
    allSpansWF len (mkParaNode s para) = true := by
  simp [mkParaNode, TxtNode.newParent, TxtNode.newText, allSpansWF, allSpansWFL]
  omega

theorem ptStepCore_paras_wf {src line : List Char} {L : Nat} {st st2 : PtState}
    (h : ptStepCore src (byteLen src) L line st = some st2)
    (hwf : allSpansWFL (byteLen src) st.paras = true) :
    allSpansWFL (byteLen src) st2.paras = true := by
  unfold ptStepCore at h
  split at h
  · split at h
    · split at h
      · exact absurd h (by simp)
      · rename_i x1 start hcs x2 para hsl
        injection h with h2
        rw [← h2]
        by_cases hp : rustTrim para = []
        · simp only [if_pos hp]
          exact hwf
        · simp only [if_neg hp]
          rw [allSpansWFL_append, hwf]
          obtain ⟨hab, hbb, hlen⟩ := sliceBytes_some_bounds hsl
          have : start + byteLen para ≤ byteLen src := by omega
          simp [allSpansWFL, mkParaNode_wf this]
    · injection h with h2
      rw [← h2]
      exact hwf
  · split at h
    · injection h with h2
      rw [← h2]
      exact hwf
    · injection h with h2
      rw [← h2]
      exact hwf

theorem ptStep_paras_wf {src line : List Char} {idx : Nat} {st st2 : PtState}
    (h : ptStep src (byteLen src) idx line st = some st2)
    (hwf : allSpansWFL (byteLen src) st.paras = true) :
    allSpansWFL (byteLen src) st2.paras = true := by
  unfold ptStep at h
  cases hls : lineStartOf src st.curEnd idx with
  | none => rw [hls] at h; exact absurd h (by simp)
  | some L =>
    rw [hls] at h
    exact ptStepCore_paras_wf h hwf

theorem ptRun_paras_wf {src : List Char} (ls : List (List Char)) :
    ∀ {idx : Nat} {st st2 : PtState},
    ptRun src (byteLen src) idx ls st = some st2 →
    allSpansWFL (byteLen src) st.paras = true →
    allSpansWFL (byteLen src) st2.paras = true := by
  induction ls with
  | nil =>
    intro idx st st2 h hwf
    injection h with h2
    rw [← h2]
    exact hwf
  | cons l ls2 ih =>
    intro idx st st2 h hwf
    show allSpansWFL _ _ = true
    unfold ptRun at h
    cases hstep : ptStep src (byteLen src) idx l st with
    | none => rw [hstep] at h; exact absurd h (by simp)
    | some stm =>
      rw [hstep] at h
      exact ih h (ptStep_paras_wf hstep hwf)

theorem ptFinish_paras_wf {src : List Char} {st : PtState} {ps : List TxtNode}
    (h : ptFinish src (byteLen src) st = some ps)
    (hwf : allSpansWFL (byteLen src) st.paras = true) :
    allSpansWFL (byteLen src) ps = true := by
  unfold ptFinish at h
  split at h
  · injection h with h2
    rw [← h2]
    exact hwf
  · split at h
    · exact absurd h (by simp)
    · rename_i x1 start hcs x2 tail hsl
      injection h with h2
      rw [← h2]
      by_cases hp : trimEnd tail = []
      · simp only [if_pos hp]
        exact hwf
      · simp only [if_neg hp]
        rw [allSpansWFL_append, hwf]
        obtain ⟨hab, hbb, hlen⟩ := sliceBytes_some_bounds hsl
        have hle : byteLen (trimEnd tail) ≤ byteLen tail := byteLen_trimEnd_le tail
        have : start + byteLen (trimEnd tail) ≤ byteLen src := by omega
        simp [allSpansWFL, mkParaNode_wf this]

/-- Every span in a successfully parsed plain-text AST lies within
`[0, len(source)]` and is well-ordered. -/
theorem parsePlainText_spans_wf {src : List Char} {ast : TxtNode}
    (h : parsePlainText src = some ast) :
    allSpansWF (byteLen src) ast = true := by
  unfold parsePlainText ptParas at h
  cases hrun : ptRun src (byteLen src) 0 (rustLines src) ⟨none, 0, []⟩ with
  | none => rw [hrun] at h; exact absurd h (by simp)
  | some stf =>
    rw [hrun] at h
    simp only [Option.some_bind] at h
    cases hfin : ptFinish src (byteLen src) stf with
    | none => rw [hfin] at h; exact absurd h (by simp)
    | some ps =>
      rw [hfin] at h
      simp only [Option.map_some'] at h
      have hwf0 : allSpansWFL (byteLen src) (PtState.paras ⟨none, 0, []⟩) = true := rfl
      have hps : allSpansWFL (byteLen src) ps = true :=
        ptFinish_paras_wf hfin (ptRun_paras_wf (rustLines src) hrun hwf0)
      injection h with h2
      rw [← h2]
      simp [TxtNode.newParent, allSpansWF, hps]

/-- The document node of a successful plain-text parse: type and span. -/
theorem parsePlainText_doc {src : List Char} {ast : TxtNode}
    (h : parsePlainText src = some ast) :
    ast.ty = .Document ∧ ast.span = ⟨0, byteLen src⟩ := by
  unfold parsePlainText at h
  cases hps : ptParas src with
  | none => rw [hps] at h; exact absurd h (by simp)
  | some ps =>
    rw [hps] at h
    simp only [Option.map_some'] at h
    injection h with h2
    rw [← h2]
    exact ⟨rfl, rfl⟩

/-! ## Markdown parser (`texide_parser/src/markdown.rs`)

The mdast tree produced by the external `markdown` crate is modelled as a
record carrying the fields the conversion reads: a kind tag, an optional
position (start/end byte offsets), the value-bearing and attribute fields,
and children.  `MarkdownParser::parse` is `to_mdast` (external) followed by
`convert_node`; we embed `convert_node` and `node_span`. -/

inductive MdKind where
  | Root | Paragraph | Heading | Text | Emphasis | Strong | InlineCode
  | Code | Link | Image | List | ListItem | Blockquote | ThematicBreak
  | Break | Html | Delete | Table | TableRow | TableCell
  | FootnoteDefinition | FootnoteReference | LinkReference | ImageReference
  | Definition | Other
deriving DecidableEq, Repr

inductive MdNode where
  | mk (kind : MdKind) (pos : Option (Nat × Nat)) (value : String)
      (depth : Nat) (ordered : Bool) (url : String) (title : Option String)
      (lang : Option String) (identifier : String) (label : Option String)
      (children : List MdNode)
deriving Repr

def MdNode.pos : MdNode → Option (Nat × Nat)
  | .mk _ p _ _ _ _ _ _ _ _ _ => p

/-- `NodeData::header(depth)` from `texide_ast` usage. -/
def NodeData.header (d : Nat) : NodeData := { depth := some d }

/-- `NodeData::code_block(lang)` from `texide_ast` usage. -/
def NodeData.codeBlock (lg : Option String) : NodeData := { lang := lg }

/-- `NodeData::link(url, title)` from `texide_ast` usage. -/
def NodeData.link (u : String) (t : Option String) : NodeData :=
  { url := some u, title := t }

/-- `NodeData::list(ordered)` from `texide_ast` usage. -/
def NodeData.list (o : Bool) : NodeData := { ordered := some o }

/-- Replacement of a node's `data` field (`node.data = …` in the source). -/
def TxtNode.withData : TxtNode → NodeData → TxtNode
  | .mk t sp v _ cs, d => .mk t sp v d cs

/-- `MarkdownParser::node_span`: position offsets when present, `(0,0)`
otherwise. -/
def nodeSpan (m : MdNode) : Span :=
  match m.pos with
  | some p => ⟨p.1, p.2⟩
  | none => ⟨0, 0⟩

mutual

/-- `MarkdownParser::convert_node`, arm by arm. -/
def convertNode : MdNode → TxtNode
  | m@(.mk kind _ value depth ordered url title lang identifier label cs) =>
    match kind with
    | .Root => TxtNode.newParent .Document (nodeSpan m) (convertChildren cs)
    | .Paragraph => TxtNode.newParent .Paragraph (nodeSpan m) (convertChildren cs)
    | .Heading =>
      (TxtNode.newParent .Header (nodeSpan m) (convertChildren cs)).withData
        (NodeData.header depth)
    | .Text => TxtNode.newText .Str (nodeSpan m) value
    | .Emphasis => TxtNode.newParent .Emphasis (nodeSpan m) (convertChildren cs)
    | .Strong => TxtNode.newParent .Strong (nodeSpan m) (convertChildren cs)
    | .InlineCode => TxtNode.newText .Code (nodeSpan m) value
    | .Code =>
      let n := TxtNode.newText .CodeBlock (nodeSpan m) value
      match lang with
      | some lg => n.withData (NodeData.codeBlock (some lg))
      | none => n
    | .Link =>
      (TxtNode.newParent .Link (nodeSpan m) (convertChildren cs)).withData
        (NodeData.link url title)
    | .Image =>
      (TxtNode.newLeaf .Image (nodeSpan m)).withData (NodeData.link url title)
    | .List =>
      (TxtNode.newParent .List (nodeSpan m) (convertChildren cs)).withData
        (NodeData.list ordered)
    | .ListItem => TxtNode.newParent .ListItem (nodeSpan m) (convertChildren cs)
    | .Blockquote =>
      TxtNode.newParent .BlockQuote (nodeSpan m) (convertChildren cs)
    | .ThematicBreak => TxtNode.newLeaf .HorizontalRule (nodeSpan m)
    | .Break => TxtNode.newLeaf .Break (nodeSpan m)
    | .Html => TxtNode.newText .Html (nodeSpan m) value
    | .Delete => TxtNode.newParent .Delete (nodeSpan m) (convertChildren cs)
    | .Table => TxtNode.newParent .Table (nodeSpan m) (convertChildren cs)
    | .TableRow => TxtNode.newParent .TableRow (nodeSpan m) (convertChildren cs)
    | .TableCell =>
      TxtNode.newParent .TableCell (nodeSpan m) (convertChildren cs)
    | .FootnoteDefinition =>
      (TxtNode.newParent .FootnoteDefinition (nodeSpan m)
        (convertChildren cs)).withData
          { identifier := some identifier, label := label }
    | .FootnoteReference =>
      (TxtNode.newLeaf .FootnoteReference (nodeSpan m)).withData
        { identifier := some identifier, label := label }
    | .LinkReference =>
      (TxtNode.newParent .LinkReference (nodeSpan m)
        (convertChildren cs)).withData
          { identifier := some identifier, label := label }
    | .ImageReference =>
      (TxtNode.newLeaf .ImageReference (nodeSpan m)).withData
        { identifier := some identifier, label := label }
    | .Definition =>
      (TxtNode.newLeaf .Definition (nodeSpan m)).withData
        { identifier := some identifier, url := some url, title := title,
          label := label }
    | .Other => TxtNode.newLeaf .Html (nodeSpan m)

/-- `MarkdownParser::convert_children`. -/
def convertChildren : List MdNode → List TxtNode
  | [] => []
  | m :: ms => convertNode m :: convertChildren ms

end

/-- All positions in an mdast tree are well-ordered and within `len`
(the guarantee provided by the upstream `markdown` crate for a source of
byte length `len`). -/
def posWF (len : Nat) : Option (Nat × Nat) → Bool
  | none => true
  | some p => decide (p.1 ≤ p.2) && decide (p.2 ≤ len)

mutual

def mdPosWF (len : Nat) : MdNode → Bool
  | .mk _ pos _ _ _ _ _ _ _ _ cs => posWF len pos && mdPosWFL len cs

def mdPosWFL (len : Nat) : List MdNode → Bool
  | [] => true
  | m :: ms => mdPosWF len m && mdPosWFL len ms

end

theorem nodeSpan_wf {len : Nat} {m : MdNode} (h : posWF len m.pos = true) :
    (nodeSpan m).start ≤ (nodeSpan m).stop ∧ (nodeSpan m).stop ≤ len := by
  unfold nodeSpan
  cases hp : m.pos with
  | none => simp
  | some p =>
    rw [hp] at h
    unfold posWF at h
    simp only [Bool.and_eq_true, decide_eq_true_eq] at h
    exact h

mutual

theorem convertNode_wf (len : Nat) (m : MdNode) (h : mdPosWF len m = true) :
    allSpansWF len (convertNode m) = true := by
  cases m with
  | mk kind pos value depth ordered url title lang identifier label cs =>
    unfold mdPosWF at h
    rw [Bool.and_eq_true] at h
    obtain ⟨hp, hc⟩ := h
    have hcs : allSpansWFL len (convertChildren cs) = true :=
      convertChildren_wf len cs hc
    have hsp := nodeSpan_wf (m := .mk kind pos value depth ordered url title
      lang identifier label cs) hp
    obtain ⟨h1, h2⟩ := hsp
    cases kind <;>
      first
      | (simp [convertNode, allSpansWF, allSpansWFL, TxtNode.newParent,
          TxtNode.newText, TxtNode.newLeaf, TxtNode.withData, hcs]
         omega)
      | (cases lang <;>
          simp [convertNode, allSpansWF, allSpansWFL, TxtNode.newParent,
            TxtNode.newText, TxtNode.newLeaf, TxtNode.withData, hcs]
          <;> omega)

theorem convertChildren_wf (len : Nat) (ms : List MdNode)
    (h : mdPosWFL len ms = true) :
    allSpansWFL len (convertChildren ms) = true := by
  cases ms with
  | nil => rfl
  | cons m ms2 =>
    unfold mdPosWFL at h
    rw [Bool.and_eq_true] at h
    obtain ⟨h1, h2⟩ := h
    show allSpansWFL len (convertNode m :: convertChildren ms2) = true
    unfold allSpansWFL
    rw [Bool.and_eq_true]
    exact ⟨convertNode_wf len m h1, convertChildren_wf len ms2 h2⟩

end

/-! ## JSON values and the plugin view (`Linter::ast_to_json`) -/

inductive Json where
  | null
  | bool (b : Bool)
  | num (n : Nat)
  | str (s : String)
  | arr (xs : List Json)
  | obj (fields : List (String × Json))
deriving Repr

/-- Modelled from the spec: the `Display` of `NodeType` (in the missing
`texide_ast` crate) renders the node type as a lowercase string. -/
def nodeTypeDisplay : NodeType → String
  | .Document => "document"
  | .Paragraph => "paragraph"
  | .Header => "header"
  | .Str => "str"
  | .Emphasis => "emphasis"
  | .Strong => "strong"
  | .Code => "code"
  | .CodeBlock => "codeblock"
  | .Link => "link"
  | .Image => "image"
  | .List => "list"
  | .ListItem => "listitem"
  | .BlockQuote => "blockquote"
  | .HorizontalRule => "horizontalrule"
  | .Break => "break"
  | .Html => "html"
  | .Delete => "delete"
  | .Table => "table"
  | .TableRow => "tablerow"
  | .TableCell => "tablecell"
  | .FootnoteDefinition => "footnotedefinition"
  | .FootnoteReference => "footnotereference"
  | .LinkReference => "linkreference"
  | .ImageReference => "imagereference"
  | .Definition => "definition"

mutual

/-- `Linter::ast_to_json` (linter.rs): the "Simplified JSON representation"
emits exactly the keys `type`, `range` and `children`; the node's `value`
and all `NodeData` attribute fields are dropped. -/
def astToJson : TxtNode → Json
  | .mk ty sp _ _ cs =>
    .obj [("type", .str (nodeTypeDisplay ty)),
          ("range", .arr [.num sp.start, .num sp.stop]),
          ("children", .arr (astListToJson cs))]

def astListToJson : List TxtNode → List Json
  | [] => []
  | n :: ns => astToJson n :: astListToJson ns

end

/-- The keys of a JSON object (in order). -/
def jsonKeys : Json → List String
  | .obj fs => fs.map Prod.fst
  | _ => []

/-! ## Configuration model (`texide_core/src/config.rs`)

`LinterConfig.rules` is a `HashMap<String, RuleConfig>` in the source; a
hash map is modelled as its list of entries in iteration order.  Two
configurations denote the same map when their entry lists are permutations
of one another; the iteration order of `std::collections::HashMap` is
randomized per process, so it is not stable across runs.  The source field
names `include` and `exclude` are keywords here and become `includePats`
and `excludePats`. -/

inductive RuleConfig where
  | enabled (b : Bool)
  | severity (s : String)
  | options (v : Json)
deriving Repr

/-- `RuleConfig::is_enabled`. -/
def RuleConfig.isEnabled : RuleConfig → Bool
  | .enabled b => b
  | .severity s => s != "off"
  | .options _ => true

structure LinterConfig where
  rules : List (String × RuleConfig)
  plugins : List String
  includePats : List String
  excludePats : List String
  cache : Bool
  cacheDir : String

/-- `LinterConfig::new`. -/
def LinterConfig.new : LinterConfig :=
  { rules := [], plugins := [], includePats := [], excludePats := [],
    cache := true, cacheDir := ".texide-cache" }

/-- `LinterConfig::enabled_rules`. -/
def LinterConfig.enabledRules (c : LinterConfig) : List (String × RuleConfig) :=
  c.rules.filter (fun p => p.2.isEnabled)

/-! ### `LinterConfig::hash`: `blake3(serde_json::to_string(self))`

`serde_json::to_string` writes struct fields in declaration order and map
entries in the map's iteration order; `RuleConfig` is `#[serde(untagged)]`.
We embed the exact JSON text produced for a given iteration order; the
final blake3 step is an external pure function of this text. -/

def hexDigit (n : Nat) : Char :=
  if n < 10 then Char.ofNat (48 + n) else Char.ofNat (87 + n)

/-- serde_json's string escaping. -/
def escChar (c : Char) : String :=
  if c = '"' then "\\\""
  else if c = '\\' then "\\\\"
  else if c = '\x08' then "\\b"
  else if c = '\x0c' then "\\f"
  else if c = '\n' then "\\n"
  else if c = '\r' then "\\r"
  else if c = '\t' then "\\t"
  else if c.toNat < 0x20 then
    "\\u00" ++ String.mk [hexDigit (c.toNat / 16), hexDigit (c.toNat % 16)]
  else String.mk [c]

def jsonEscape (s : String) : String := String.join (s.toList.map escChar)

def renderString (s : String) : String := "\"" ++ jsonEscape s ++ "\""

mutual

def renderJson : Json → String
  | .null => "null"
  | .bool b => if b then "true" else "false"
  | .num n => Nat.repr n
  | .str s => renderString s
  | .arr xs => "[" ++ renderJsonList xs ++ "]"
  | .obj fs => "\x7b" ++ renderJsonFields fs ++ "\x7d"

def renderJsonList : List Json → String
  | [] => ""
  | [x] => renderJson x
  | x :: xs => renderJson x ++ "," ++ renderJsonList xs

def renderJsonFields : List (String × Json) → String
  | [] => ""
  | [f] => renderString f.1 ++ ":" ++ renderJson f.2
  | f :: fs => renderString f.1 ++ ":" ++ renderJson f.2 ++ "," ++
      renderJsonFields fs

end

/-- The untagged serde serialization of `RuleConfig`. -/
def renderRuleConfig : RuleConfig → String
  | .enabled b => if b then "true" else "false"
  | .severity s => renderString s
  | .options v => renderJson v

def renderStrArr (xs : List String) : String :=
  "[" ++ String.intercalate "," (xs.map renderString) ++ "]"

/-- `serde_json::to_string(config)`: the exact hash input of
`LinterConfig::hash`, parameterized over the `rules` map's iteration order
(carried by the entry list). -/
def configJson (c : LinterConfig) : String :=
  "\x7b\"rules\":\x7b"
  ++ String.intercalate ","
      (c.rules.map (fun p => renderString p.1 ++ ":" ++ renderRuleConfig p.2))
  ++ "\x7d,\"plugins\":" ++ renderStrArr c.plugins
  ++ ",\"include\":" ++ renderStrArr c.includePats
  ++ ",\"exclude\":" ++ renderStrArr c.excludePats
  ++ ",\"cache\":" ++ (if c.cache then "true" else "false")
  ++ ",\"cache_dir\":" ++ renderString c.cacheDir
  ++ "\x7d"

/-! ## Cache, lint results and the per-file pipeline
(`texide_core/src/linter.rs`, `result.rs`)

The `texide_cache` crate and the `texide_plugin` diagnostics are not among
the sources; `CacheEntry`, the validity predicate, `get`/`set` and
`Diagnostic` are modelled from the spec (§3, §4.4): an entry is valid iff
the cache is enabled, an entry exists for the path, and content hash,
config hash and the rule-version map all match. -/

structure Diagnostic where
  ruleId : String
  message : String
  span : Span
  severity : Option String := none
deriving DecidableEq, Repr

structure CacheEntry where
  contentHash : String
  configHash : String
  ruleVersions : List (String × String)
  diagnostics : List Diagnostic
deriving DecidableEq, Repr

structure CacheState where
  enabled : Bool
  entries : List (String × CacheEntry)
deriving Repr

/-- Modelled from the spec: `CacheManager::get`. -/
def CacheState.get (st : CacheState) (path : String) : Option CacheEntry :=
  (st.entries.find? (fun e => e.1 == path)).map Prod.snd

/-- Modelled from the spec: `CacheManager::set` (map insertion). -/
def CacheState.set (st : CacheState) (path : String) (e : CacheEntry) :
    CacheState :=
  { st with entries := (path, e) :: st.entries }

/-- Modelled from the spec (§4.4): the cache validity predicate. -/
def CacheState.isValid (st : CacheState) (path ch cfgh : String)
    (rv : List (String × String)) : Bool :=
  st.enabled &&
    match st.get path with
    | none => false
    | some e =>
      decide (e.contentHash = ch) && decide (e.configHash = cfgh) &&
        decide (e.ruleVersions = rv)

structure LintResult where
  path : String
  diagnostics : List Diagnostic
  fromCache : Bool
deriving DecidableEq, Repr

/-- `LintResult::new` (result.rs). -/
def LintResult.new (p : String) (d : List Diagnostic) : LintResult :=
  ⟨p, d, false⟩

/-- `LintResult::cached` (result.rs). -/
def LintResult.cached (p : String) (d : List Diagnostic) : LintResult :=
  ⟨p, d, true⟩

inductive LintOutcome where
  | ok (r : LintResult) (st : CacheState)
  | err (st : CacheState)
deriving Repr

/-- `Linter::lint_file`: read, consult the cache, parse and run rules, then
store a cache entry.  File reading is the `read?` argument (`none` is an
I/O error), `parseRun content` is parsing followed by
`run_all_rules` (`none` is a parse error), and the content/config hashes
and rule versions are the values the source computes before the cache
check.  `.err` carries the unchanged cache state. -/
def lintFile (st : CacheState) (path : String) (read? : Option String)
    (hashContent : String → String) (configHash : String)
    (rv : List (String × String))
    (parseRun : String → Option (List Diagnostic)) : LintOutcome :=
  match read? with
  | none => .err st
  | some content =>
    let contentHash := hashContent content
    match (if st.isValid path contentHash configHash rv then st.get path
           else none) with
    | some entry => .ok (LintResult.cached path entry.diagnostics) st
    | none =>
      match parseRun content with
      | none => .err st
      | some diagnostics =>
        .ok (LintResult.new path diagnostics)
          (st.set path ⟨contentHash, configHash, rv, diagnostics⟩)

structure FileJob where
  path : String
  read? : Option String
  parseRun : String → Option (List Diagnostic)

inductive ErrorKind where
  | config | io | parse | plugin | internal
deriving DecidableEq, Repr

structure LinterError where
  kind : ErrorKind
  message : String
deriving Repr

/-- The loop body of `Linter::lint_files`: failed files are logged and
skipped, successful results are collected in order. -/
def lintFilesGo (hashContent : String → String) (configHash : String)
    (rv : List (String × String)) :
    List FileJob → CacheState → List LintResult × CacheState
  | [], st => ([], st)
  | j :: js, st =>
    match lintFile st j.path j.read? hashContent configHash rv j.parseRun with
    | .ok r st2 =>
      let rest := lintFilesGo hashContent configHash rv js st2
      (r :: rest.1, rest.2)
    | .err st2 => lintFilesGo hashContent configHash rv js st2

/-- `Linter::lint_files` always returns `Ok(results)`; per-file errors are
only logged. -/
def lintFiles (hashContent : String → String) (configHash : String)
    (rv : List (String × String)) (js : List FileJob) (st : CacheState) :
    Except LinterError (List LintResult × CacheState) :=
  .ok (lintFilesGo hashContent configHash rv js st)

/-! ## Parser selection (`Linter::select_parser`) -/

inductive ParserKind where
  | markdown
  | plainText
deriving DecidableEq, Repr

/-- `MarkdownParser::extensions` (markdown.rs). -/
def markdownExtensions : List String := ["md", "markdown", "mdown", "mkdn", "mkd"]

/-- `PlainTextParser::extensions` (text.rs). -/
def plainTextExtensions : List String := ["txt", "text"]

def asciiLowerChar (c : Char) : Char :=
  if 65 ≤ c.toNat ∧ c.toNat ≤ 90 then Char.ofNat (c.toNat + 32) else c

/-- Rust `str::to_ascii_lowercase`. -/
def asciiLower (s : String) : String := String.mk (s.toList.map asciiLowerChar)

/-- Rust `str::eq_ignore_ascii_case`. -/
def eqIgnoreAsciiCase (a b : String) : Bool := asciiLower a == asciiLower b

/-- Modelled from the spec: the `Parser` trait's `can_parse` default method
(`extensions` membership, ASCII-case-insensitive). -/
def canParse (exts : List String) (ext : String) : Bool :=
  exts.any (fun e => eqIgnoreAsciiCase e ext)

/-- `Linter::select_parser`: Markdown when the markdown parser accepts the
extension, else the plain-text parser (both remaining branches). -/
def selectParserKind (ext : String) : ParserKind :=
  if canParse markdownExtensions ext then .markdown
  else if canParse plainTextExtensions ext then .plainText
  else .plainText

/-- The `Heading(depth=1)` mdast node of `"# Hello"` (spec scenario S1). -/
def headingExample : MdNode :=
  .mk .Heading (some (0, 7)) "" 1 false "" none none "" none
    [.mk .Text (some (2, 7)) "Hello" 0 false "" none none "" none []]

/-- Helper lemmas for the pipeline model. -/
theorem lintFile_err_state {st st2 : CacheState} {path : String}
    {read? : Option String} {hashContent : String → String}
    {configHash : String} {rv : List (String × String)}
    {parseRun : String → Option (List Diagnostic)}
    (h : lintFile st path read? hashContent configHash rv parseRun
      = .err st2) : st2 = st := by
  unfold lintFile at h
  repeat' first
    | split at h
    | (injection h with h2; exact h2.symm)
    | simp at h

/-! ## Claim theorems -/

/-- C1: the claim says `Linter::ast_to_json` serializes the value-bearing
and attribute fields (`value`, `depth`, …) when present.  The code emits
only `type`, `range` and `children`: for the `Header(depth=1)` node of
`"# Hello"` the node carries `data.depth = some 1` and a `Str` child
carrying a value, yet the JSON object has exactly the keys
`type`, `range`, `children` and no `depth` or `value` key anywhere. -/
theorem claim_C1_ast_to_json_drops_attributes :
    (convertNode headingExample).data.depth = some 1 ∧
    jsonKeys (astToJson (convertNode headingExample))
      = ["type", "range", "children"] ∧
    "depth" ∉ jsonKeys (astToJson (convertNode headingExample)) ∧
    "value" ∉ jsonKeys (astToJson (convertNode headingExample)) := by
  refine ⟨rfl, rfl, ?_, ?_⟩ <;> decide

/-- C2: `LinterConfig::hash` feeds `serde_json::to_string(self)` to blake3,
and `rules` is a `std::collections::HashMap`, serialized in iteration
order.  Two iteration orders of the same two-entry map (the same
`LinterConfig` value) produce different serialization strings, so the hash
input — and hence the hash — is not determined by the configuration alone;
`HashMap` iteration order is randomized per process. -/
theorem claim_C2_config_hash_input_order_dependent :
    configJson
        { rules := [("a", .enabled true), ("b", .enabled false)],
          plugins := [], includePats := [], excludePats := [],
          cache := true, cacheDir := ".texide-cache" }
      ≠ configJson
        { rules := [("b", .enabled false), ("a", .enabled true)],
          plugins := [], includePats := [], excludePats := [],
          cache := true, cacheDir := ".texide-cache" } ∧
    List.Perm [("a", RuleConfig.enabled true), ("b", RuleConfig.enabled false)]
      [("b", RuleConfig.enabled false), ("a", RuleConfig.enabled true)] := by
  constructor
  · decide
  · exact List.Perm.swap _ _ []

/-- C3 counterexample: on `" a"` the claim requires the `Str` child to
carry the trimmed text `"a"` with span `[1, 2)` (the first non-blank byte
is at offset 1).  `PlainTextParser::parse` returns a `Str` carrying the
untrimmed `" a"` with span `[0, 2)`. -/
theorem claim_C3_counterexample :
    parsePlainText [' ', 'a']
      = some (TxtNode.mk .Document ⟨0, 2⟩ none {}
          [TxtNode.mk .Paragraph ⟨0, 2⟩ none {}
            [TxtNode.mk .Str ⟨0, 2⟩ (some " a") {} []]]) ∧
    (" a" : String) ≠ "a" ∧ (0 : Nat) ≠ 1 :=
  ⟨rfl, by decide, by decide⟩

/-- C3 amended: for every carriage-return-free source,
`PlainTextParser::parse` returns one `Paragraph` per maximal run of lines
with non-blank trimmed content, but the `Str` child carries the run's raw
text — from the start of the run's first line (leading whitespace
included) up to the byte before the terminating blank line, or, for the
final run, the remaining source trimmed of trailing whitespace only — and
the span is `[start of the run's first line, start + byte length of that
text)`; this is the decomposition computed by `refAux`/`refParse`. -/
theorem claim_C3_amended_paragraphs (src : List Char)
    (hcr : ∀ c ∈ src, c ≠ '\r') :
    parsePlainText src = some (refParse src) :=
  parsePlainText_eq_refParse src hcr

/-- Witness for C3 amended at the source `"a\n\nb"`. -/
theorem claim_C3_amended_paragraphs_witness :
    parsePlainText ['a', '\n', '\n', 'b']
      = some (refParse ['a', '\n', '\n', 'b']) :=
  claim_C3_amended_paragraphs ['a', '\n', '\n', 'b'] (by decide)

/-- C4: with caching enabled, if a first `lint_file` run stored an entry
(`from_cache = false`) and the content hash, config hash and rule-version
map are unchanged, the second invocation returns `LintResult::cached` with
`from_cache = true` and the first run's diagnostics, leaving the cache
unchanged — regardless of what parsing would do on the second run. -/
theorem claim_C4_cache_hit (st st1 : CacheState) (path content cfgh : String)
    (rv : List (String × String)) (hashContent : String → String)
    (pr pr2 : String → Option (List Diagnostic)) (r1 : LintResult)
    (hen : st.enabled = true)
    (h1 : lintFile st path (some content) hashContent cfgh rv pr = .ok r1 st1)
    (hstored : r1.fromCache = false) :
    lintFile st1 path (some content) hashContent cfgh rv pr2
      = .ok (LintResult.cached path r1.diagnostics) st1 := by
  simp only [lintFile] at h1
  rcases hhit : (if st.isValid path (hashContent content) cfgh rv
      then st.get path else none) with _ | e
  · rw [hhit] at h1
    rcases hpr : pr content with _ | diags
    · rw [hpr] at h1
      exact absurd h1 (fun hh => nomatch hh)
    · rw [hpr] at h1
      injection h1 with hr hst
      have hdiag : r1.diagnostics = diags := by rw [← hr]; rfl
      subst hst
      have hget : (st.set path
            ⟨hashContent content, cfgh, rv, diags⟩).get path
          = some ⟨hashContent content, cfgh, rv, diags⟩ := by
        unfold CacheState.get CacheState.set
        rw [List.find?_cons_of_pos _ (by simp)]
        rfl
      have hval : (st.set path
            ⟨hashContent content, cfgh, rv, diags⟩).isValid path
            (hashContent content) cfgh rv = true := by
        unfold CacheState.isValid
        rw [hget]
        simp [CacheState.set, hen]
      simp only [lintFile]
      rw [hval]
      simp [hget, hdiag]
  · rw [hhit] at h1
    injection h1 with hr hst
    rw [← hr] at hstored
    exact absurd hstored (by simp [LintResult.cached])

/-- Witness for C4: a concrete first run stores an entry, the second run
hits the cache even though its parser would fail. -/
theorem claim_C4_cache_hit_witness :
    lintFile (CacheState.mk true [("a.md", CacheEntry.mk "x" "h" [] [])])
        "a.md" (some "x") (fun s => s) "h" [] (fun _ => none)
      = .ok (LintResult.cached "a.md" [])
          (CacheState.mk true [("a.md", CacheEntry.mk "x" "h" [] [])]) :=
  claim_C4_cache_hit (CacheState.mk true [])
    (CacheState.mk true [("a.md", CacheEntry.mk "x" "h" [] [])])
    "a.md" "x" "h" [] (fun s => s) (fun _ => some []) (fun _ => none)
    (LintResult.new "a.md" []) rfl rfl rfl

/-- C5: every span of an AST produced by either parser satisfies
`start ≤ end ≤ len(source)`.  Plain text: unconditional on success.
Markdown: `convert_node` takes each span from the upstream parser's
position (or `(0,0)`), so the bound holds whenever the upstream positions
are within the source, which the external `markdown` crate guarantees. -/
theorem claim_C5_spans_in_bounds :
    (∀ (src : List Char) (ast : TxtNode), parsePlainText src = some ast →
      allSpansWF (byteLen src) ast = true) ∧
    (∀ (len : Nat) (m : MdNode), mdPosWF len m = true →
      allSpansWF len (convertNode m) = true) :=
  ⟨fun _ _ h => parsePlainText_spans_wf h,
   fun len m h => convertNode_wf len m h⟩

/-- Witness for C5 at the plain-text source `"hi"` and the mdast of
`"# Hello"`. -/
theorem claim_C5_spans_in_bounds_witness :
    allSpansWF (byteLen ['h', 'i'])
      (TxtNode.mk .Document ⟨0, 2⟩ none {}
        [TxtNode.mk .Paragraph ⟨0, 2⟩ none {}
          [TxtNode.mk .Str ⟨0, 2⟩ (some "hi") {} []]]) = true ∧
    allSpansWF 7 (convertNode headingExample) = true :=
  ⟨claim_C5_spans_in_bounds.1 ['h', 'i'] _ rfl,
   claim_C5_spans_in_bounds.2 7 headingExample (by decide)⟩

/-- C6: `enabled_rules()` returns exactly the rules whose `RuleConfig` is
enabled: `Enabled(b)` iff `b`, `Severity(s)` iff `s ≠ "off"`, `Options(_)`
always. -/
theorem claim_C6_enabled_rules (c : LinterConfig) (name : String)
    (rc : RuleConfig) :
    (name, rc) ∈ c.enabledRules ↔
      ((name, rc) ∈ c.rules ∧
        match rc with
        | .enabled b => b = true
        | .severity s => s ≠ "off"
        | .options _ => True) := by
  unfold LinterConfig.enabledRules
  rw [List.mem_filter]
  refine and_congr_right (fun _ => ?_)
  cases rc with
  | enabled b => simp [RuleConfig.isEnabled]
  | severity s => simp [RuleConfig.isEnabled, bne_iff_ne]
  | options v => simp [RuleConfig.isEnabled]

/-- C7: a file whose `lint_file` fails (I/O or parse error) leaves the
cache untouched and is omitted from the batch, and `lint_files` still
returns `Ok`: the batch over `j :: js` equals the batch over `js`. -/
theorem claim_C7_failed_file_skipped (hashContent : String → String)
    (cfgh : String) (rv : List (String × String)) (st st2 : CacheState)
    (j : FileJob) (js : List FileJob)
    (h : lintFile st j.path j.read? hashContent cfgh rv j.parseRun
      = .err st2) :
    st2 = st ∧
    lintFiles hashContent cfgh rv (j :: js) st
      = lintFiles hashContent cfgh rv js st := by
  have hst : st2 = st := lintFile_err_state h
  subst hst
  refine ⟨rfl, ?_⟩
  simp only [lintFiles, lintFilesGo, h]

/-- Witness for C7: a file whose read fails is skipped. -/
theorem claim_C7_failed_file_skipped_witness :
    (CacheState.mk true [] : CacheState) = CacheState.mk true [] ∧
    lintFiles (fun s => s) "h" []
        [FileJob.mk "bad.md" none (fun _ => some []),
         FileJob.mk "ok.md" (some "x") (fun _ => some [])]
        (CacheState.mk true [])
      = lintFiles (fun s => s) "h" []
          [FileJob.mk "ok.md" (some "x") (fun _ => some [])]
          (CacheState.mk true []) :=
  claim_C7_failed_file_skipped (fun s => s) "h" []
    (CacheState.mk true []) (CacheState.mk true [])
    (FileJob.mk "bad.md" none (fun _ => some []))
    [FileJob.mk "ok.md" (some "x") (fun _ => some [])] rfl

/-- C8: `select_parser` chooses Markdown exactly for the (ASCII
case-insensitive) extensions md, markdown, mdown, mkdn, mkd, and the
plain-text parser for every other extension (including txt, text, unknown
and empty). -/
theorem claim_C8_parser_selection (ext : String) :
    (selectParserKind ext = .markdown ↔
      asciiLower ext ∈ markdownExtensions) ∧
    (selectParserKind ext = .plainText ↔
      asciiLower ext ∉ markdownExtensions) := by
  have e1 : asciiLower "md" = "md" := rfl
  have e2 : asciiLower "markdown" = "markdown" := rfl
  have e3 : asciiLower "mdown" = "mdown" := rfl
  have e4 : asciiLower "mkdn" = "mkdn" := rfl
  have e5 : asciiLower "mkd" = "mkd" := rfl
  have hcan : canParse markdownExtensions ext = true ↔
      asciiLower ext ∈ markdownExtensions := by
    unfold canParse markdownExtensions eqIgnoreAsciiCase
    simp only [List.any_cons, List.any_nil, Bool.or_eq_true, beq_iff_eq,
      e1, e2, e3, e4, e5, List.mem_cons, List.not_mem_nil, or_false,
      Bool.false_eq_true]
    constructor
    · rintro (h | h | h | h | h)
      · exact Or.inl h.symm
      · exact Or.inr (Or.inl h.symm)
      · exact Or.inr (Or.inr (Or.inl h.symm))
      · exact Or.inr (Or.inr (Or.inr (Or.inl h.symm)))
      · exact Or.inr (Or.inr (Or.inr (Or.inr h.symm)))
    · rintro (h | h | h | h | h)
      · exact Or.inl h.symm
      · exact Or.inr (Or.inl h.symm)
      · exact Or.inr (Or.inr (Or.inl h.symm))
      · exact Or.inr (Or.inr (Or.inr (Or.inl h.symm)))
      · exact Or.inr (Or.inr (Or.inr (Or.inr h.symm)))
  by_cases hm : canParse markdownExtensions ext = true
  · have hsel : selectParserKind ext = .markdown := by
      unfold selectParserKind
      rw [if_pos hm]
    rw [hsel]
    exact ⟨iff_of_true rfl (hcan.mp hm),
      iff_of_false (by simp) (fun hn => hn (hcan.mp hm))⟩
  · have hsel : selectParserKind ext = .plainText := by
      unfold selectParserKind
      rw [if_neg hm]
      exact ite_self _
    have hnm : asciiLower ext ∉ markdownExtensions := fun hmem =>
      hm (hcan.mpr hmem)
    rw [hsel]
    exact ⟨iff_of_false (by simp) hnm, iff_of_true rfl hnm⟩

/-- C9: the empty source parses to a `Document` with no children, and
every returned document node is a `Document` with span
`[0, len(source))`. -/
theorem claim_C9_document_node :
    parsePlainText [] = some (TxtNode.newParent .Document ⟨0, 0⟩ []) ∧
    ∀ (src : List Char) (ast : TxtNode), parsePlainText src = some ast →
      ast.ty = .Document ∧ ast.span = ⟨0, byteLen src⟩ :=
  ⟨rfl, fun _ _ h => parsePlainText_doc h⟩

/-- Witness for C9 at the source `"hi"`. -/
theorem claim_C9_document_node_witness :
    (TxtNode.mk .Document ⟨0, 2⟩ none {}
        [TxtNode.mk .Paragraph ⟨0, 2⟩ none {}
          [TxtNode.mk .Str ⟨0, 2⟩ (some "hi") {} []]] : TxtNode).ty
        = .Document ∧
    (TxtNode.mk .Document ⟨0, 2⟩ none {}
        [TxtNode.mk .Paragraph ⟨0, 2⟩ none {}
          [TxtNode.mk .Str ⟨0, 2⟩ (some "hi") {} []]] : TxtNode).span
        = ⟨0, byteLen ['h', 'i']⟩ :=
  claim_C9_document_node.2 ['h', 'i'] _ rfl

/-- C10: the claim says `PlainTextParser::parse` returns `Ok` for every
source.  On the 5-byte source `"é\r\n\r"` (bytes C3 A9 0D 0A 0D) the code
computes `para_text = &source[0..1]` — byte 1 falls inside the two-byte
character `é`, so the slice panics: the model returns `none` (no `Ok` is
returned). -/
theorem claim_C10_parse_panics :
    parsePlainText ['é', '\r', '\n', '\r'] = none := rfl

end Texide
